import Mathlib

set_option maxRecDepth 40000

/-!
Verification of the fuzzy text clustering and canonicalization core of the
`csv_tools` repository, against its natural-language specification.

Two components are modelled, both translated directly from the Python source:

* `ypaa_comitee_analyzer.extract_groups` — the entity extractor / normalizer
  (splitting a free-text field into segments, whole-word `YPAA` regex
  matching, substring typo correction, host/advisory fallback, sentinel
    idioms, title-case fallback);
* `column_similarity_analyzer.analyze_similarity` — the greedy similarity
  clusterer built on `difflib.SequenceMatcher.ratio`.

Scope notes on the embedding:
* All inputs of interest are ASCII; the Python `str` methods (`lower`,
  `upper`, `title`, `strip`) and the regexes are modelled at ASCII precision,
  matching the spec's declared scope ("no localization beyond ASCII-oriented
  case-folding").
* Python floats are modelled as exact rationals (`ℚ`); every comparison the
  claims exercise is far from any binary-rounding boundary.
* `list(set(xs))` returns the distinct elements of `xs` in an order CPython
  does not specify (string hashing is seed-randomized), so the result of
  `extract_groups` on the multi-label path is modelled as a relation: any
  duplicate-free permutation of the distinct collected labels.
-/

/-! ## Python string primitives -/

/-- Python whitespace at ASCII precision: the characters `str.strip` and the
regex class `\s` treat as space. -/
def pyIsSpace (c : Char) : Bool :=
  c = ' ' || c = '\t' || c = '\n' || c = '\r' || c = '\x0b' || c = '\x0c'

/-- Python `str.strip()`:  drop leading and trailing whitespace. -/
def pyStrip (s : String) : String :=
  String.mk (((s.toList.dropWhile pyIsSpace).reverse.dropWhile pyIsSpace).reverse)

/-- Python `str.lower()` (ASCII). -/
def pyLower (s : String) : String :=
  String.mk (s.toList.map Char.toLower)

/-- Python `str.upper()` (ASCII). -/
def pyUpper (s : String) : String :=
  String.mk (s.toList.map Char.toUpper)

/-- One step of Python `str.title()`: a cased (here: alphabetic) character is
upper-cased when the previous character was not cased, lower-cased otherwise;
other characters pass through and reset the word boundary. -/
def pyTitleAux : Bool → List Char → List Char
  | _, [] => []
  | prevCased, c :: rest =>
    if c.isAlpha then
      (if prevCased then c.toLower else c.toUpper) :: pyTitleAux true rest
    else
      c :: pyTitleAux false rest

/-- Python `str.title()` (ASCII). -/
def pyTitle (s : String) : String :=
  String.mk (pyTitleAux false s.toList)

/-- Does `hay` start with `needle`? -/
def startsWithB : List Char → List Char → Bool
  | [], _ => true
  | _ :: _, [] => false
  | a :: as, b :: bs => a == b && startsWithB as bs

/-- Occurrence of `needle` as a contiguous sublist of the list. -/
def pyInAux (needle : List Char) : List Char → Bool
  | [] => needle.isEmpty
  | c :: rest => startsWithB needle (c :: rest) || pyInAux needle rest

/-- Python's substring test `needle in hay`. -/
def pyIn (needle hay : String) : Bool :=
  pyInAux needle.toList hay.toList

/-! ## The extractor's tables (`ypaa_comitee_analyzer.py`, lines 19-62) -/

/-- Sentinel label for negative/blank answers. -/
def noLabel : String := "Not Specified / Not a YPAA"

/-- Sentinel label for a bare affirmative with no group named. -/
def yesLabel : String := "Yes, Unspecified Group"

/-- Fallback label for a segment that only names a role. -/
def hostLabel : String := "Host / Advisory (Unspecified YPAA)"

/-- The `no_responses` idiom set (a Python `set`; only membership is used). -/
def no_responses : List String :=
  ["", "nan", "no", "nope", "not yet", "not right now", "maybe",
   "not currently", "not at this time", "hell no", "naur", "n",
   "not yet!", "not this year", "there isnt one near me :(",
   "negative/supporter/cheerleader"]

/-- The bare-affirmative idiom list. -/
def yes_responses : List String :=
  ["yes", "why yes i am", "yes .", "yea", "yes!"]

/-- The `normalization_map` dict: canonical-name rewrites applied by exact
key lookup to the upper-cased regex match. -/
def normalization_map : List (String × String) :=
  [("SALTYPAA", "UCYPAA"),
   ("SLUTYPAA", "UCYPAA"),
   ("SLTYPAA", "UCYPAA")]

/-- The `typos` dict in source order (Python dicts iterate in insertion
order, and the first matching key wins). -/
def typos : List (String × String) :=
  [("ucpaa", "UCYPAA"),
   ("sltypaa", "UCYPAA"),
   ("buttey", "BUTTEYPAA"),
   ("wac", "WACYPAA"),
   ("wacy", "WACYPAA"),
   ("sacy", "SACYPAA"),
   ("renvy", "RENVYPAA"),
   ("renypaa", "RENVYPAA"),
   ("swac", "SWACYPAA"),
   ("swacypa", "SWACYPAA"),
   ("burquypaa", "BURQYPAA"),
   ("burqypqaa", "BURQYPAA"),
   ("nacypa", "NACYPAA"),
   ("ccpaa", "CCYPAA"),
   ("bellypa", "BELLYPAA"),
   ("bacy", "BACYPAA"),
   ("tity", "TITYPAA")]

/-- Exact dict lookup over an association list (first matching key). -/
def exactLookup : List (String × String) → String → Option String
  | [], _ => none
  | (k, v) :: rest, s => if s = k then some v else exactLookup rest s

/-- Exact-key application of `normalization_map`
(`if found_name in normalization_map: found_name = normalization_map[found_name]`). -/
def applyNormMap (s : String) : String :=
  match exactLookup normalization_map s with
  | some v => v
  | none => s

/-- The `for typo, correction in typos.items(): if typo in part_lower: ... break`
loop: first entry whose key occurs in the (already lower-cased) argument. -/
def typoLookup : List (String × String) → String → Option String
  | [], _ => none
  | (k, v) :: rest, sLower => if pyIn k sLower then some v else typoLookup rest sLower

/-- The substring-matching normalization induced by the `typos` table on a
raw token: lower-case it, take the first matching entry's correction, and
leave the token unchanged when no key occurs in it. -/
def applyTypoTable (s : String) : String :=
  match typoLookup typos (pyLower s) with
  | some v => v
  | none => s

/-! ## The whole-word YPAA regex (`re.search(r'\b([a-zA-Z]*YPAA)\b', part, re.IGNORECASE)`) -/

/-- Word character for `\b` at ASCII precision (`[a-zA-Z0-9_]`). -/
def isWordChar (c : Char) : Bool :=
  c.isAlpha || c.isDigit || c = '_'

/-- Attempt the pattern `\b([a-zA-Z]*YPAA)\b` at the start of `cs`, where
`prevNonWord` says whether the preceding character (if any) was a non-word
character.  Any successful match begins with a letter and, because every
interior position of a letter run is flanked by word characters, the greedy
`[a-zA-Z]*` with backtracking succeeds exactly when the maximal letter run at
this position ends (case-insensitively) in `ypaa` and is followed by a word
boundary; the captured group is then the whole run. -/
def tryYpaa (prevNonWord : Bool) (cs : List Char) : Option (List Char) :=
  if !prevNonWord then none
  else
    let run := cs.takeWhile Char.isAlpha
    if 4 ≤ run.length ∧
       (run.drop (run.length - 4)).map Char.toLower = ['y', 'p', 'a', 'a'] ∧
       (match cs.drop run.length with
        | [] => true
        | c :: _ => !isWordChar c) = true
    then some run
    else none

/-- Leftmost search of the pattern over the string (`re.search` semantics:
try each start position from the left, first success wins). -/
def searchYpaa : Bool → List Char → Option (List Char)
  | _, [] => none
  | prevNonWord, c :: rest =>
    match tryYpaa prevNonWord (c :: rest) with
    | some g => some g
    | none => searchYpaa (!isWordChar c) rest

/-! ## The segment splitter (`re.split(r'[/,&]|\s+and\s+', name)`) -/

/-- Is the head of the list a Python whitespace character? -/
def headIsSpace : List Char → Bool
  | [] => false
  | c :: _ => pyIsSpace c

/-- Backtracking for `\s+and\s+` anchored at the current position: the greedy
`\s+` tries the longest leading whitespace run first (`k` counts the
candidate run length, counting down), then requires the literal `and` and at
least one further whitespace character; the trailing `\s+` is greedy, so the
remainder starts after the maximal whitespace run following `and`.  Returns
the remainder of the string after the matched separator. -/
def tryAndSepGo : Nat → List Char → Option (List Char)
  | 0, _ => none
  | k + 1, cs =>
    if ((cs.take (k + 1)).all pyIsSpace ∧
        (cs.drop (k + 1)).take 3 = ['a', 'n', 'd'] ∧
        headIsSpace (cs.drop (k + 4)) = true)
    then some ((cs.drop (k + 4)).dropWhile pyIsSpace)
    else tryAndSepGo k cs

/-- Attempt the `\s+and\s+` alternative at the current position. -/
def tryAndSep (cs : List Char) : Option (List Char) :=
  tryAndSepGo (cs.takeWhile pyIsSpace).length cs

/-- Left-to-right scan of `re.split(r'[/,&]|\s+and\s+', ·)`: at each position
the single-character class `[/,&]` is tried first (it is the first
alternative), then `\s+and\s+`; a match ends the current part and starts the
next one.  `fuel` only bounds the recursion: every step consumes at least one
character, so `fuel = cs.length` is never exhausted. -/
def splitGo : Nat → List Char → List Char → List (List Char) → List (List Char)
  | _, [], cur, acc => (cur.reverse :: acc).reverse
  | 0, cs, cur, acc => ((cur.reverse ++ cs) :: acc).reverse
  | fuel + 1, c :: rest, cur, acc =>
    if c = '/' || c = ',' || c = '&' then
      splitGo fuel rest [] (cur.reverse :: acc)
    else
      match tryAndSep (c :: rest) with
      | some rest2 => splitGo fuel rest2 [] (cur.reverse :: acc)
      | none => splitGo fuel rest (c :: cur) acc

/-- `re.split(r'[/,&]|\s+and\s+', name)`. -/
def splitParts (name : String) : List String :=
  (splitGo name.toList.length name.toList [] []).map String.mk

/-! ## The per-segment loop body (`ypaa_comitee_analyzer.py`, lines 70-113) -/

/-- Processing of one raw part against the accumulated `found_groups` list:
strip; skip empty; whole-word YPAA regex first (upper-case the group, apply
`normalization_map`, append, `continue`); else the `typos` substring scan
with first-match-wins; else the host/advisory fallback, which appends its
label only when `found_groups` is still empty. -/
def processPart (acc : List String) (rawPart : String) : List String :=
  let part := pyStrip rawPart
  if part = "" then acc
  else
    let partLower := pyLower part
    match searchYpaa true part.toList with
    | some g => acc ++ [applyNormMap (pyUpper (String.mk g))]
    | none =>
      match typoLookup typos partLower with
      | some correction => acc ++ [correction]
      | none =>
        if pyIn "host" partLower || pyIn "advisory" partLower then
          if acc = [] then acc ++ [hostLabel] else acc
        else acc

/-- The `found_groups` accumulator after the whole `for part in parts:` loop. -/
def found_groups (name : String) : List String :=
  (splitParts name).foldl processPart []

/-- The full `extract_groups` decision chain as a relation between the input
field and a possible return value.  Every branch except one is
deterministic; on the branch `return list(set(found_groups))` CPython
guarantees only that the result lists each distinct collected label exactly
once (set iteration order is unspecified and hash-seed dependent), so there
the relation accepts every duplicate-free permutation of the distinct
labels.  The first test merges `if not name or not name.strip()`, which is
equivalent to `name.strip() == ''`. -/
def extract_groups (name : String) (out : List String) : Prop :=
  if pyStrip name = "" then out = [noLabel]
  else
    if pyLower (pyStrip name) ∈ no_responses then out = [noLabel]
    else if pyLower (pyStrip name) ∈ yes_responses then out = [yesLabel]
    else if found_groups name ≠ [] then out.Perm (found_groups name).dedup
    else if pyIn "yes" (pyLower (pyStrip name)) = true then out = [yesLabel]
    else out = [pyTitle (pyStrip name)]

instance extract_groups.decidable (name : String) (out : List String) :
    Decidable (extract_groups name out) := by
  unfold extract_groups
  infer_instance

/-! ## `difflib.SequenceMatcher` (no junk: the inputs are short strings)

`ratio()` is `2 * M / T` where `T` is the total length of both sequences and
`M` is the total size of the matching blocks found by recursively locating
the longest matching block (CPython `difflib.py`); with `isjunk = None` and
strings far below the autojunk threshold of 200, `b2j` maps each character
of `b` to all of its positions and the junk-only loops of
`find_longest_match` never fire. -/

/-- CPython's `b2j`: the positions (ascending) of a character in `b`. -/
def b2jList (b : List Char) (c : Char) : List Nat :=
  (b.enum.filter (fun p => p.2 == c)).map (fun p => p.1)

/-- Inner loop of `find_longest_match` for one index `i` of `a`: walk the
positions `j` of `a[i]` in `b` (already restricted to `[blo, bhi)`), extend
the diagonal run length from the previous row's `j2len`, and keep the
longest block seen so far (strict improvement only, so the first longest
block in scan order wins, as in CPython). -/
def flmInner (i : Nat) (j2len : List (Nat × Nat)) :
    List Nat → List (Nat × Nat) → Nat × Nat × Nat → List (Nat × Nat) × (Nat × Nat × Nat)
  | [], newj2len, best => (newj2len, best)
  | j :: js, newj2len, best =>
    let prev := if j = 0 then 0 else
      match j2len.lookup (j - 1) with
      | some v => v
      | none => 0
    let k := prev + 1
    let best2 := if best.2.2 < k then (i + 1 - k, j + 1 - k, k) else best
    flmInner i j2len js ((j, k) :: newj2len) best2

/-- Outer loop of `find_longest_match`: one `flmInner` pass per `i` in
`[alo, ahi)`, threading the `j2len` row. -/
def flmOuter (a b : List Char) (blo bhi : Nat) :
    List Nat → List (Nat × Nat) → Nat × Nat × Nat → Nat × Nat × Nat
  | [], _, best => best
  | i :: is, j2len, best =>
    let js := (b2jList b (a.getD i '\x00')).filter
      (fun j => decide (blo ≤ j) && decide (j < bhi))
    let r := flmInner i j2len js [] best
    flmOuter a b blo bhi is r.1 r.2

/-- The first post-loop `while` of `find_longest_match`: extend the best
block leftwards over equal (non-junk) characters.  The fuel is an upper
bound on the number of possible steps (`besti - alo`); every iteration
moves `besti` down by one. -/
def extendLeft (a b : List Char) (alo blo : Nat) :
    Nat → Nat → Nat → Nat → Nat × Nat × Nat
  | 0, besti, bestj, bestsize => (besti, bestj, bestsize)
  | fuel + 1, besti, bestj, bestsize =>
    if alo < besti ∧ blo < bestj ∧ a.getD (besti - 1) '\x00' = b.getD (bestj - 1) '\x01'
    then extendLeft a b alo blo fuel (besti - 1) (bestj - 1) (bestsize + 1)
    else (besti, bestj, bestsize)

/-- The second post-loop `while`: extend the best block rightwards. -/
def extendRight (a b : List Char) (ahi bhi : Nat) :
    Nat → Nat → Nat → Nat → Nat × Nat × Nat
  | 0, besti, bestj, bestsize => (besti, bestj, bestsize)
  | fuel + 1, besti, bestj, bestsize =>
    if besti + bestsize < ahi ∧ bestj + bestsize < bhi ∧
       a.getD (besti + bestsize) '\x00' = b.getD (bestj + bestsize) '\x01'
    then extendRight a b ahi bhi fuel besti bestj (bestsize + 1)
    else (besti, bestj, bestsize)

/-- `find_longest_match(alo, ahi, blo, bhi)` over the windows
`a[alo:ahi]`, `b[blo:bhi]` (the junk-only extension loops are omitted: with
no junk their guards are always false). -/
def findLongestMatch (a b : List Char) (alo ahi blo bhi : Nat) : Nat × Nat × Nat :=
  let best := flmOuter a b blo bhi (List.range' alo (ahi - alo)) [] (alo, blo, 0)
  let best2 := extendLeft a b alo blo best.1 best.1 best.2.1 best.2.2
  extendRight a b ahi bhi (ahi - best2.1) best2.1 best2.2.1 best2.2.2

/-- Total size of the matching blocks of `get_matching_blocks`, computed by
the same divide-and-conquer recursion (the queue order in CPython does not
affect the set of blocks, hence not their total size; merging adjacent
blocks preserves the sum).  Each recursive call strictly shrinks
`(ahi - alo) + (bhi - blo)`, so fuel equal to that sum plus one is never
exhausted. -/
def matchSum (a b : List Char) : Nat → Nat → Nat → Nat → Nat → Nat
  | 0, _, _, _, _ => 0
  | fuel + 1, alo, ahi, blo, bhi =>
    let m := findLongestMatch a b alo ahi blo bhi
    let i := m.1
    let j := m.2.1
    let k := m.2.2
    if k = 0 then 0
    else
      k + (if alo < i ∧ blo < j then matchSum a b fuel alo i blo j else 0)
        + (if i + k < ahi ∧ j + k < bhi then matchSum a b fuel (i + k) ahi (j + k) bhi else 0)

/-- Total matching-block size over the whole strings. -/
def matchesTotal (x y : String) : Nat :=
  matchSum x.toList y.toList (x.toList.length + y.toList.length + 1)
    0 x.toList.length 0 y.toList.length

/-- `SequenceMatcher(None, x, y).ratio()`: `2 * M / T`, and `1.0` when both
strings are empty (`_calculate_ratio`). -/
def pyRatio (x y : String) : ℚ :=
  if x.toList.length + y.toList.length = 0 then 1
  else (2 * (matchesTotal x y) : ℚ) / ((x.toList.length + y.toList.length : ℕ) : ℚ)

/-- Kernel-computable form of the comparison `ratio >= cutoff`: for
`T > 0`, `cutoff ≤ 2M/T ↔ cutoff.num * T ≤ 2M * cutoff.den`, and for
`T = 0` the ratio is `1` and `cutoff ≤ 1 ↔ cutoff.num ≤ cutoff.den`.
`ratioGe_iff` below proves the equivalence with `cutoff ≤ pyRatio`. -/
def ratioGe (c : ℚ) (x y : String) : Bool :=
  if x.toList.length + y.toList.length = 0 then decide (c.num ≤ (c.den : ℤ))
  else decide (c.num * ((x.toList.length + y.toList.length : ℕ) : ℤ) ≤
    2 * (matchesTotal x y : ℤ) * (c.den : ℤ))

/-! ## The greedy similarity clusterer
(`column_similarity_analyzer.analyze_similarity`, lines 82-122) -/

/-- Lexicographic comparison of character lists by code point, as Python
compares strings. -/
def lexLe : List Char → List Char → Bool
  | [], _ => true
  | _ :: _, [] => false
  | a :: as, b :: bs => if a < b then true else if b < a then false else lexLe as bs

/-- Python `s1 <= s2` on strings. -/
def strLeB (a b : String) : Bool := lexLe a.toList b.toList

/-- `unique_vals = list(counts.keys()); unique_vals.sort()`: the distinct
values in ascending lexicographic order (for distinct keys every stable
sort produces the same list, so the starting key order is irrelevant). -/
def uniqueSorted (values : List String) : List String :=
  List.insertionSort (fun a b => strLeB a b = true) values.dedup

/-- The inner `for j in range(i + 1, ...)` scan for one root: skip visited
candidates, compute the case-insensitive ratio and admit the candidate into
the group (marking it visited) when the ratio reaches the cutoff.  The
source's length-difference quick check (lines 110-111) sits between the
visited test and the ratio computation, but its body is `pass`, so it has
no effect and corresponds to no code here.  Returns the admitted
`(value, count)` pairs in scan order together with the final visited set. -/
def scanCandidates (c : ℚ) (counts : String → Nat) (root : String) :
    List String → List String → List (String × Nat) × List String
  | [], visited => ([], visited)
  | cand :: rest, visited =>
    if cand ∈ visited then scanCandidates c counts root rest visited
    else if ratioGe c (pyLower root) (pyLower cand) then
      let p := scanCandidates c counts root rest (cand :: visited)
      ((cand, counts cand) :: p.1, p.2)
    else scanCandidates c counts root rest visited

/-- The outer loop: each unvisited value becomes a root, is marked visited,
scans all later values, and the resulting group is kept only when it has
more than one member. -/
def buildGroups (c : ℚ) (counts : String → Nat) :
    List String → List String → List (List (String × Nat))
  | [], _ => []
  | v :: rest, visited =>
    if v ∈ visited then buildGroups c counts rest visited
    else
      let p := scanCandidates c counts v rest (v :: visited)
      let grp := (v, counts v) :: p.1
      if 1 < grp.length then grp :: buildGroups c counts rest p.2
      else buildGroups c counts rest p.2

/-- Sum of the member counts of a group (the sort key of line 122). -/
def sumCounts (g : List (String × Nat)) : Nat :=
  (g.map (fun p => p.2)).sum

/-- Member values of a group. -/
def memberNames (g : List (String × Nat)) : List String :=
  g.map (fun p => p.1)

/-- The clusterer on a column's non-empty values at a given cutoff:
`Counter` the values, sort the distinct keys, run the greedy grouping, and
sort the groups by descending total count (`groups.sort(key=..., reverse=True)`;
both that sort and this one are stable, and group membership is all the
claims consume). -/
def similarityGroups (values : List String) (c : ℚ) : List (List (String × Nat)) :=
  List.insertionSort (fun g h => sumCounts h ≤ sumCounts g)
    (buildGroups c (fun v => values.count v) (uniqueSorted values) [])

/-- The cutoff of the current tool surface: `cutoff = 0.6` (line 90), a
local constant of `analyze_similarity`; the function takes no cutoff
parameter. -/
def cutoff : ℚ := Rat.mk' 3 5 (by decide) (by decide)

/-- The group output of `analyze_similarity` proper, with its hard-coded
cutoff. -/
def analyze_similarity_groups (values : List String) : List (List (String × Nat)) :=
  similarityGroups values cutoff

/-- Two values land in the same output group. -/
def SameGroup (values : List String) (c : ℚ) (x y : String) : Prop :=
  ∃ g ∈ similarityGroups values c, x ∈ memberNames g ∧ y ∈ memberNames g

instance SameGroup.decidable (values : List String) (c : ℚ) (x y : String) :
    Decidable (SameGroup values c x y) := by
  unfold SameGroup
  infer_instance

/-- The guard of the length-pruning quick check, exactly as written on line
110: `abs(len(root) - len(candidate)) > len(root) * (1 - cutoff) + 2`. -/
def lengthPrune (root cand : String) (c : ℚ) : Prop :=
  |(root.toList.length : ℚ) - (cand.toList.length : ℚ)| >
    (root.toList.length : ℚ) * (1 - c) + 2

/-! ## Kernel-reduced rational constants used by the concrete scenarios -/

/-- The rational `4/5 = 0.8`, in reduced form so that the kernel can
evaluate the clusterer at it. -/
def cutoff45 : ℚ := Rat.mk' 4 5 (by decide) (by decide)

/-- The rational `9/10 = 0.9`, in reduced form. -/
def cutoff910 : ℚ := Rat.mk' 9 10 (by decide) (by decide)

theorem rat_mk_eq_div {n : ℤ} {d : ℕ} (hd : d ≠ 0) (hr : n.natAbs.Coprime d) :
    Rat.mk' n d hd hr = (n : ℚ) / (d : ℚ) := by
  have h := Rat.num_div_den (Rat.mk' n d hd hr)
  simpa using h.symm

theorem cutoff_eq : cutoff = 3 / 5 := by
  rw [cutoff, rat_mk_eq_div]
  norm_num

theorem cutoff45_eq : cutoff45 = 4 / 5 := by
  rw [cutoff45, rat_mk_eq_div]
  norm_num

theorem cutoff910_eq : cutoff910 = 9 / 10 := by
  rw [cutoff910, rat_mk_eq_div]
  norm_num

/-! ## The comparison bridge: `ratioGe` computes `cutoff ≤ pyRatio` -/

theorem ratioGe_iff (c : ℚ) (x y : String) :
    ratioGe c x y = true ↔ c ≤ pyRatio x y := by
  unfold ratioGe pyRatio
  rcases Nat.eq_zero_or_pos (x.toList.length + y.toList.length) with ht | ht
  · rw [if_pos ht, if_pos ht, decide_eq_true_eq, Rat.le_def]
    norm_num
  · have htne : x.toList.length + y.toList.length ≠ 0 := Nat.pos_iff_ne_zero.mp ht
    have htq : (0 : ℚ) < ((x.toList.length + y.toList.length : ℕ) : ℚ) := by
      exact_mod_cast ht
    have hdq : (0 : ℚ) < ((c.den : ℕ) : ℚ) := by exact_mod_cast c.den_pos
    rw [if_neg htne, if_neg htne, decide_eq_true_eq, le_div_iff₀ htq]
    constructor <;> intro h
    · rw [← Rat.num_div_den c, div_mul_eq_mul_div, div_le_iff₀ hdq]
      exact_mod_cast h
    · rw [← Rat.num_div_den c, div_mul_eq_mul_div, div_le_iff₀ hdq] at h
      exact_mod_cast h

theorem ratioGe_false_iff (c : ℚ) (x y : String) :
    ratioGe c x y = false ↔ pyRatio x y < c := by
  rw [← not_le, ← ratioGe_iff]
  cases h : ratioGe c x y <;> simp [h]

theorem ratioGe_mono {c1 c2 : ℚ} (h : c1 ≤ c2) {x y : String}
    (h2 : ratioGe c2 x y = true) : ratioGe c1 x y = true := by
  rw [ratioGe_iff] at h2 ⊢
  exact le_trans h h2

/-! ## Supporting lemmas: substring containment -/

theorem pyInAux_of_startsWithB : ∀ {n l : List Char}, startsWithB n l = true → pyInAux n l = true
  | n, [], h => by
    cases n with
    | nil => rfl
    | cons a as => simp [startsWithB] at h
  | n, c :: rest, h => by simp [pyInAux, h]

theorem pyInAux_tail_needle {x : Char} {n : List Char} :
    ∀ (l : List Char), pyInAux (x :: n) l = true → pyInAux n l = true := by
  intro l
  induction l with
  | nil => intro h; simp [pyInAux] at h
  | cons c rest ih =>
    intro h
    simp only [pyInAux, Bool.or_eq_true] at h ⊢
    rcases h with h | h
    · simp only [startsWithB, Bool.and_eq_true] at h
      exact Or.inr (pyInAux_of_startsWithB h.2)
    · exact Or.inr (ih h)

theorem startsWithB_append {n m : List Char} :
    ∀ {l : List Char}, startsWithB (n ++ m) l = true → startsWithB n l = true := by
  induction n with
  | nil => intro l _; rfl
  | cons a as ih =>
    intro l h
    cases l with
    | nil => simp [startsWithB] at h
    | cons b bs =>
      simp only [List.cons_append, startsWithB, Bool.and_eq_true] at h ⊢
      exact ⟨h.1, ih h.2⟩

theorem pyInAux_prefix_needle {n m : List Char} :
    ∀ (l : List Char), pyInAux (n ++ m) l = true → pyInAux n l = true := by
  intro l
  induction l with
  | nil =>
    intro h
    simp only [pyInAux, List.isEmpty_eq_true, List.append_eq_nil] at h
    simp [pyInAux, h.1]
  | cons c rest ih =>
    intro h
    simp only [pyInAux, Bool.or_eq_true] at h ⊢
    rcases h with h | h
    · exact Or.inl (startsWithB_append h)
    · exact Or.inr (ih h)

theorem pyIn_swac_imp_wac (s : String) (h : pyIn "swac" s = true) : pyIn "wac" s = true := by
  have e1 : ("swac" : String).toList = 's' :: ['w', 'a', 'c'] := by decide
  have e2 : ("wac" : String).toList = ['w', 'a', 'c'] := by decide
  rw [pyIn, e1] at h
  rw [pyIn, e2]
  exact pyInAux_tail_needle _ h

theorem pyIn_swacypa_imp_wac (s : String) (h : pyIn "swacypa" s = true) : pyIn "wac" s = true := by
  have e1 : ("swacypa" : String).toList = 's' :: (['w', 'a', 'c'] ++ ['y', 'p', 'a']) := by decide
  have e2 : ("wac" : String).toList = ['w', 'a', 'c'] := by decide
  rw [pyIn, e1] at h
  rw [pyIn, e2]
  exact pyInAux_prefix_needle _ (pyInAux_tail_needle _ h)

/-! ## Supporting lemmas: the lookup tables -/

theorem exactLookup_mem_values :
    ∀ (l : List (String × String)) (s v : String),
      exactLookup l s = some v → v ∈ l.map (fun p => p.2)
  | [], s, v, h => by simp [exactLookup] at h
  | (k, w) :: rest, s, v, h => by
    rw [exactLookup] at h
    split_ifs at h with hk
    · cases h; simp
    · simpa using Or.inr (exactLookup_mem_values rest s v h)

theorem typoLookup_mem_values :
    ∀ (l : List (String × String)) (t v : String),
      typoLookup l t = some v → v ∈ l.map (fun p => p.2)
  | [], t, v, h => by simp [typoLookup] at h
  | (k, w) :: rest, t, v, h => by
    rw [typoLookup] at h
    split_ifs at h with hk
    · cases h; simp
    · simpa using Or.inr (typoLookup_mem_values rest t v h)

theorem typoLookup_cons (k w : String) (rest : List (String × String)) (s : String) :
    typoLookup ((k, w) :: rest) s = if pyIn k s then some w else typoLookup rest s := rfl

/-- Every correction the `typos` scan can return is itself left fixed when
fed back through the scan: the only dict value that is not a fixed point of
the scan is `SWACYPAA`, but its keys `swac` and `swacypa` both contain the
earlier key `wac`, so they can never be the first match. -/
theorem typoLookup_fix {t v : String} (h : typoLookup typos t = some v) :
    applyTypoTable v = v := by
  simp only [typos] at h
  rw [typoLookup_cons] at h; split_ifs at h with h1
  · injection h with hh; subst hh; decide
  rw [typoLookup_cons] at h; split_ifs at h with h2
  · injection h with hh; subst hh; decide
  rw [typoLookup_cons] at h; split_ifs at h with h3
  · injection h with hh; subst hh; decide
  rw [typoLookup_cons] at h; split_ifs at h with h4
  · injection h with hh; subst hh; decide
  rw [typoLookup_cons] at h; split_ifs at h with h5
  · injection h with hh; subst hh; decide
  rw [typoLookup_cons] at h; split_ifs at h with h6
  · injection h with hh; subst hh; decide
  rw [typoLookup_cons] at h; split_ifs at h with h7
  · injection h with hh; subst hh; decide
  rw [typoLookup_cons] at h; split_ifs at h with h8
  · injection h with hh; subst hh; decide
  rw [typoLookup_cons] at h; split_ifs at h with h9
  · exact absurd (pyIn_swac_imp_wac _ h9) h4
  rw [typoLookup_cons] at h; split_ifs at h with h10
  · exact absurd (pyIn_swacypa_imp_wac _ h10) h4
  rw [typoLookup_cons] at h; split_ifs at h with h11
  · injection h with hh; subst hh; decide
  rw [typoLookup_cons] at h; split_ifs at h with h12
  · injection h with hh; subst hh; decide
  rw [typoLookup_cons] at h; split_ifs at h with h13
  · injection h with hh; subst hh; decide
  rw [typoLookup_cons] at h; split_ifs at h with h14
  · injection h with hh; subst hh; decide
  rw [typoLookup_cons] at h; split_ifs at h with h15
  · injection h with hh; subst hh; decide
  rw [typoLookup_cons] at h; split_ifs at h with h16
  · injection h with hh; subst hh; decide
  rw [typoLookup_cons] at h; split_ifs at h with h17
  · injection h with hh; subst hh; decide
  exact Option.noConfusion h

theorem exactLookup_norm_value {s v : String}
    (h : exactLookup normalization_map s = some v) : v = "UCYPAA" := by
  have hall : ∀ w ∈ normalization_map.map (fun p => p.2), w = "UCYPAA" := by decide
  exact hall v (exactLookup_mem_values _ _ _ h)

/-- C9 helper: exact-key application of `normalization_map` is idempotent. -/
theorem applyNormMap_idem (s : String) : applyNormMap (applyNormMap s) = applyNormMap s := by
  rcases hk : exactLookup normalization_map s with _ | v
  · simp [applyNormMap, hk]
  · have hv := exactLookup_norm_value hk
    subst hv
    simp only [applyNormMap, hk]
    decide

/-- C9 helper: the substring typo scan is idempotent as well. -/
theorem applyTypoTable_idem (s : String) :
    applyTypoTable (applyTypoTable s) = applyTypoTable s := by
  rcases hk : typoLookup typos (pyLower s) with _ | v
  · simp [applyTypoTable, hk]
  · have hv := typoLookup_fix hk
    simp only [applyTypoTable, hk]
    exact hv

/-- C9: the normalization tables are idempotent.  The exact-key map
(`normalization_map`) maps every one of its output values to itself and
applying it twice equals applying it once; the substring scan over `typos`
leaves every token it can actually produce unchanged (the dict value
`SWACYPAA` is unreachable: its keys contain the earlier key `wac`), and
applying it twice equals applying it once. -/
theorem normalization_idempotent :
    (∀ s, applyNormMap (applyNormMap s) = applyNormMap s) ∧
    (∀ kv ∈ normalization_map, applyNormMap kv.2 = kv.2) ∧
    (∀ t v, typoLookup typos t = some v → applyTypoTable v = v) ∧
    (∀ s, applyTypoTable (applyTypoTable s) = applyTypoTable s) := by
  refine ⟨applyNormMap_idem, by decide, ?_, applyTypoTable_idem⟩
  intro t v h
  exact typoLookup_fix h

/-- Witness for C9 at concrete inputs: the table value reached from the key
`SALTYPAA` is a fixed point, and the scan correction of a segment containing
`bacy` is a fixed point of the scan. -/
theorem normalization_idempotent_witness :
    applyNormMap ("SALTYPAA", "UCYPAA").2 = ("SALTYPAA", "UCYPAA").2 ∧
    applyTypoTable "BACYPAA" = "BACYPAA" :=
  ⟨normalization_idempotent.2.1 ("SALTYPAA", "UCYPAA") (by decide),
   normalization_idempotent.2.2.1 "bacy committee" "BACYPAA" (by decide)⟩

/-! ## Supporting lemmas: upper-casing an alphabetic token never yields a
sentinel label (sentinels contain a space resp. a comma) -/

theorem uint32_le_iff (a b : UInt32) : a ≤ b ↔ a.toNat ≤ b.toNat := Iff.rfl

theorem charOfNat_toNat {n : Nat} (h1 : 65 ≤ n) (h2 : n ≤ 90) :
    (Char.ofNat n).toNat = n := by
  have hv : n.isValidChar := Or.inl (by omega)
  simp [Char.ofNat, hv, Char.ofNatAux, Char.toNat, UInt32.ofNat', UInt32.toNat]

theorem isAlpha_toNat_range {c : Char} (h : c.isAlpha = true) :
    (65 ≤ c.toNat ∧ c.toNat ≤ 90) ∨ (97 ≤ c.toNat ∧ c.toNat ≤ 122) := by
  simp only [Char.isAlpha, Char.isUpper, Char.isLower, Bool.or_eq_true, Bool.and_eq_true,
    decide_eq_true_eq, ge_iff_le] at h
  have ec : c.toNat = c.val.toNat := rfl
  rcases h with ⟨h1, h2⟩ | ⟨h1, h2⟩
  · have a1 := (uint32_le_iff _ _).mp h1
    have a2 := (uint32_le_iff _ _).mp h2
    have e1 : (65 : UInt32).toNat = 65 := rfl
    have e2 : (90 : UInt32).toNat = 90 := rfl
    exact Or.inl (by omega)
  · have a1 := (uint32_le_iff _ _).mp h1
    have a2 := (uint32_le_iff _ _).mp h2
    have e1 : (97 : UInt32).toNat = 97 := rfl
    have e2 : (122 : UInt32).toNat = 122 := rfl
    exact Or.inr (by omega)

theorem toUpper_toNat_range {c : Char} (h : c.isAlpha = true) :
    65 ≤ c.toUpper.toNat ∧ c.toUpper.toNat ≤ 90 := by
  rcases isAlpha_toNat_range h with ⟨h1, h2⟩ | ⟨h1, h2⟩
  · have hc : ¬(c.toNat ≥ 97 ∧ c.toNat ≤ 122) := by omega
    simp only [Char.toUpper]
    rw [if_neg hc]
    exact ⟨h1, h2⟩
  · have hc : c.toNat ≥ 97 ∧ c.toNat ≤ 122 := ⟨h1, h2⟩
    simp only [Char.toUpper]
    rw [if_pos hc]
    rw [charOfNat_toNat (by omega) (by omega)]
    omega

theorem toList_mk (l : List Char) : (String.mk l).toList = l := rfl

theorem tryYpaa_alpha {b : Bool} {cs g : List Char} (h : tryYpaa b cs = some g) :
    ∀ c ∈ g, c.isAlpha = true := by
  simp only [tryYpaa] at h
  split_ifs at h with hb hcond
  all_goals first
    | exact Option.noConfusion h
    | (injection h with hg; subst hg; intro c hc; exact List.mem_takeWhile_imp hc)

theorem searchYpaa_cons (b : Bool) (c0 : Char) (rest : List Char) :
    searchYpaa b (c0 :: rest) =
      match tryYpaa b (c0 :: rest) with
      | some g => some g
      | none => searchYpaa (!isWordChar c0) rest := rfl

theorem searchYpaa_alpha :
    ∀ (b : Bool) (cs g : List Char), searchYpaa b cs = some g → ∀ c ∈ g, c.isAlpha = true
  | _, [], g, h => by simp [searchYpaa] at h
  | b, c0 :: rest, g, h => by
    rw [searchYpaa_cons] at h
    rcases ht : tryYpaa b (c0 :: rest) with _ | g'
    · rw [ht] at h
      exact searchYpaa_alpha _ rest g h
    · rw [ht] at h
      injection h with hg
      subst hg
      exact tryYpaa_alpha ht

theorem pyUpper_alpha_ne_sentinels {g : List Char} (halpha : ∀ c ∈ g, c.isAlpha = true) :
    pyUpper (String.mk g) ≠ noLabel ∧ pyUpper (String.mk g) ≠ yesLabel := by
  constructor <;> intro he
  · have hd : g.map Char.toUpper = noLabel.toList := by
      have h2 := congrArg String.toList he
      simpa [pyUpper, toList_mk] using h2
    have hsp : (' ' : Char) ∈ g.map Char.toUpper := by
      rw [hd]; decide
    obtain ⟨c, hc, hcu⟩ := List.mem_map.1 hsp
    have hr := toUpper_toNat_range (halpha c hc)
    rw [hcu] at hr
    exact absurd hr (by decide)
  · have hd : g.map Char.toUpper = yesLabel.toList := by
      have h2 := congrArg String.toList he
      simpa [pyUpper, toList_mk] using h2
    have hsp : (',' : Char) ∈ g.map Char.toUpper := by
      rw [hd]; decide
    obtain ⟨c, hc, hcu⟩ := List.mem_map.1 hsp
    have hr := toUpper_toNat_range (halpha c hc)
    rw [hcu] at hr
    exact absurd hr (by decide)

theorem applyNormMap_alpha_ne_sentinels {g : List Char} (halpha : ∀ c ∈ g, c.isAlpha = true) :
    applyNormMap (pyUpper (String.mk g)) ≠ noLabel ∧
    applyNormMap (pyUpper (String.mk g)) ≠ yesLabel := by
  rcases hk : exactLookup normalization_map (pyUpper (String.mk g)) with _ | v
  · simp only [applyNormMap, hk]
    exact pyUpper_alpha_ne_sentinels halpha
  · have hv := exactLookup_norm_value hk
    subst hv
    simp only [applyNormMap, hk]
    decide

/-! ## Supporting lemmas: `found_groups` never collects a sentinel label -/

theorem processPart_mem {acc : List String} {rawPart x : String}
    (h : x ∈ processPart acc rawPart) :
    x ∈ acc ∨ (x ≠ noLabel ∧ x ≠ yesLabel) := by
  by_cases hempty : pyStrip rawPart = ""
  · simp only [processPart] at h
    rw [if_pos hempty] at h
    exact Or.inl h
  · simp only [processPart] at h
    rw [if_neg hempty] at h
    rcases hs : searchYpaa true (pyStrip rawPart).toList with _ | g
    · simp only [hs] at h
      rcases htl : typoLookup typos (pyLower (pyStrip rawPart)) with _ | corr
      · simp only [htl] at h
        split_ifs at h with hHost hAcc
        · rcases List.mem_append.1 h with h' | h'
          · exact Or.inl h'
          · rw [List.mem_singleton.1 h']
            exact Or.inr (by decide)
        · exact Or.inl h
        · exact Or.inl h
      · simp only [htl] at h
        rcases List.mem_append.1 h with h' | h'
        · exact Or.inl h'
        · rw [List.mem_singleton.1 h']
          have hgood : ∀ v ∈ typos.map (fun p => p.2), v ≠ noLabel ∧ v ≠ yesLabel := by decide
          exact Or.inr (hgood _ (typoLookup_mem_values _ _ _ htl))
    · simp only [hs] at h
      rcases List.mem_append.1 h with h' | h'
      · exact Or.inl h'
      · rw [List.mem_singleton.1 h']
        exact Or.inr (applyNormMap_alpha_ne_sentinels (searchYpaa_alpha _ _ _ hs))

theorem foldl_processPart_mem :
    ∀ (parts acc : List String) (x : String),
      x ∈ parts.foldl processPart acc → x ∈ acc ∨ (x ≠ noLabel ∧ x ≠ yesLabel)
  | [], _, _, h => Or.inl h
  | p :: ps, acc, x, h => by
    rcases foldl_processPart_mem ps (processPart acc p) x h with h' | h'
    · exact processPart_mem h'
    · exact Or.inr h'

theorem found_groups_good {name x : String} (h : x ∈ found_groups name) :
    x ≠ noLabel ∧ x ≠ yesLabel := by
  rcases foldl_processPart_mem _ _ _ h with h' | h'
  · simp at h'
  · exact h'

/-- Canonical representative of the `extract_groups` relation (choosing the
last-kept dedup order in the set branch); a pure proof device used to
witness that the relation is total, i.e. that the code always returns. -/
def extract_groups_default (name : String) : List String :=
  if pyStrip name = "" then [noLabel]
  else
    if pyLower (pyStrip name) ∈ no_responses then [noLabel]
    else if pyLower (pyStrip name) ∈ yes_responses then [yesLabel]
    else if found_groups name ≠ [] then (found_groups name).dedup
    else if pyIn "yes" (pyLower (pyStrip name)) = true then [yesLabel]
    else [pyTitle (pyStrip name)]

theorem extract_groups_default_spec (name : String) :
    extract_groups name (extract_groups_default name) := by
  unfold extract_groups extract_groups_default
  split_ifs <;> rfl

/-! ## The claims about the extractor -/

/-- C1 (counterexample): the claim asserts that `extract_groups("WAC/BACY")`
returns exactly `["WACYPAA", "BACYPAA"]` in that (first-seen) order, but the
code returns `list(set(found_groups))`, whose order CPython does not fix:
the reversed list is also a possible return value, so the claimed equality
does not hold of every result. -/
theorem extract_groups_wac_bacy_order_not_fixed :
    extract_groups "WAC/BACY" ["BACYPAA", "WACYPAA"] ∧
    ¬ (∀ out, extract_groups "WAC/BACY" out → out = ["WACYPAA", "BACYPAA"]) := by
  constructor
  · decide
  · intro hall
    have h := hall ["BACYPAA", "WACYPAA"] (by decide)
    exact absurd h (by decide)

/-- C1 (amended): on the branch where the extractor collected at least one
label, every possible result of `extract_groups` lists exactly the distinct
collected labels, each once — deduplication holds but the order is
unspecified; in particular every result for `"WAC/BACY"` is a permutation
of `["WACYPAA", "BACYPAA"]`. -/
theorem extract_groups_dedup_unordered :
    (∀ (name : String) (out : List String),
        pyStrip name ≠ "" →
        pyLower (pyStrip name) ∉ no_responses →
        pyLower (pyStrip name) ∉ yes_responses →
        found_groups name ≠ [] →
        extract_groups name out →
        out.Nodup ∧ ∀ x, (x ∈ out ↔ x ∈ found_groups name)) ∧
    (∀ out, extract_groups "WAC/BACY" out → out.Perm ["WACYPAA", "BACYPAA"]) := by
  constructor
  · intro name out h1 h2 h3 h4 h
    unfold extract_groups at h
    rw [if_neg h1, if_neg h2, if_neg h3, if_pos h4] at h
    refine ⟨h.symm.nodup (List.nodup_dedup _), ?_⟩
    intro x
    rw [h.mem_iff]
    exact List.mem_dedup
  · intro out h
    unfold extract_groups at h
    rw [if_neg (by decide), if_neg (by decide), if_neg (by decide), if_pos (by decide)] at h
    have hd : (found_groups "WAC/BACY").dedup = ["WACYPAA", "BACYPAA"] := by decide
    rwa [hd] at h

/-- Witness for C1's amended theorem at the concrete input `"WAC/BACY"` and
the concrete result `["WACYPAA", "BACYPAA"]`. -/
theorem extract_groups_dedup_unordered_witness :
    (["WACYPAA", "BACYPAA"] : List String).Nodup ∧
    ("WACYPAA" ∈ (["WACYPAA", "BACYPAA"] : List String) ↔
      "WACYPAA" ∈ found_groups "WAC/BACY") :=
  have h := extract_groups_dedup_unordered.1 "WAC/BACY" ["WACYPAA", "BACYPAA"]
    (by decide) (by decide) (by decide) (by decide) (by decide)
  ⟨h.1, h.2 "WACYPAA"⟩

/-- C5: when the whole-word YPAA regex matches a segment, the matched group
is upper-cased, passed through the exact-key `normalization_map`, appended,
and the segment contributes nothing else (the typo scan and host fallback
are never consulted); in particular every possible result of
`extract_groups("WACYPAA Host")` is exactly `["WACYPAA"]`, with no
Host/Advisory label. -/
theorem regex_precedes_typo_scan :
    (∀ (acc : List String) (rawPart : String) (g : List Char),
        searchYpaa true (pyStrip rawPart).toList = some g →
        processPart acc rawPart = acc ++ [applyNormMap (pyUpper (String.mk g))]) ∧
    (∀ out, extract_groups "WACYPAA Host" out → out = ["WACYPAA"]) := by
  constructor
  · intro acc rawPart g h
    have hne : pyStrip rawPart ≠ "" := by
      intro he
      rw [he] at h
      have h0 : searchYpaa true ("" : String).toList = none := rfl
      rw [h0] at h
      exact Option.noConfusion h
    simp only [processPart]
    rw [if_neg hne]
    simp only [h]
  · intro out h
    unfold extract_groups at h
    rw [if_neg (by decide), if_neg (by decide), if_neg (by decide), if_pos (by decide)] at h
    have hd : (found_groups "WACYPAA Host").dedup = ["WACYPAA"] := by decide
    rw [hd] at h
    exact List.perm_singleton.mp h

/-- Witness for C5 at a concrete segment and a concrete result. -/
theorem regex_precedes_typo_scan_witness :
    processPart ["BACYPAA"] "WACYPAA Host" =
      ["BACYPAA"] ++ [applyNormMap (pyUpper (String.mk ['W', 'A', 'C', 'Y', 'P', 'A', 'A']))] ∧
    (["WACYPAA"] : List String) = ["WACYPAA"] :=
  ⟨regex_precedes_typo_scan.1 ["BACYPAA"] "WACYPAA Host"
      ['W', 'A', 'C', 'Y', 'P', 'A', 'A'] (by decide),
   regex_precedes_typo_scan.2 ["WACYPAA"] (by decide)⟩

/-- C6: a non-empty segment matching neither the whole-word YPAA regex nor
any typo-table key, but containing `host` or `advisory` (case-insensitively),
contributes `Host / Advisory (Unspecified YPAA)` exactly when no label has
been collected yet — stated both for one step of the loop (`acc` is the
label list collected from earlier segments) and for a whole field whose
segment list ends with such a segment. -/
theorem host_advisory_fallback :
    (∀ (acc : List String) (rawPart : String),
        pyStrip rawPart ≠ "" →
        searchYpaa true (pyStrip rawPart).toList = none →
        typoLookup typos (pyLower (pyStrip rawPart)) = none →
        (pyIn "host" (pyLower (pyStrip rawPart)) ||
          pyIn "advisory" (pyLower (pyStrip rawPart))) = true →
        processPart acc rawPart = if acc = [] then [hostLabel] else acc) ∧
    (∀ (pre : List String) (rawPart : String),
        pyStrip rawPart ≠ "" →
        searchYpaa true (pyStrip rawPart).toList = none →
        typoLookup typos (pyLower (pyStrip rawPart)) = none →
        (pyIn "host" (pyLower (pyStrip rawPart)) ||
          pyIn "advisory" (pyLower (pyStrip rawPart))) = true →
        (pre ++ [rawPart]).foldl processPart [] =
          if pre.foldl processPart [] = [] then [hostLabel]
          else pre.foldl processPart []) := by
  have step : ∀ (acc : List String) (rawPart : String),
      pyStrip rawPart ≠ "" →
      searchYpaa true (pyStrip rawPart).toList = none →
      typoLookup typos (pyLower (pyStrip rawPart)) = none →
      (pyIn "host" (pyLower (pyStrip rawPart)) ||
        pyIn "advisory" (pyLower (pyStrip rawPart))) = true →
      processPart acc rawPart = if acc = [] then [hostLabel] else acc := by
    intro acc rawPart h1 h2 h3 h4
    simp only [processPart]
    rw [if_neg h1]
    simp only [h2, h3, h4, if_true]
    by_cases ha : acc = []
    · rw [if_pos ha, if_pos ha, ha]
      rfl
    · rw [if_neg ha, if_neg ha]
  refine ⟨step, ?_⟩
  intro pre rawPart h1 h2 h3 h4
  rw [List.foldl_append]
  simp only [List.foldl_cons, List.foldl_nil]
  exact step _ _ h1 h2 h3 h4

/-- Witness for C6: a bare `" Host "` segment with nothing collected yields
the fallback label, and the same segment after a collected label
contributes nothing. -/
theorem host_advisory_fallback_witness :
    processPart [] " Host " = [hostLabel] ∧
    processPart ["WACYPAA"] "advisory" = ["WACYPAA"] := by
  constructor
  · have h := host_advisory_fallback.1 [] " Host "
      (by decide) (by decide) (by decide) (by decide)
    simpa using h
  · have h := host_advisory_fallback.1 ["WACYPAA"] "advisory"
      (by decide) (by decide) (by decide) (by decide)
    simpa using h

/-- C8: the extractor is total — every string input (empty, punctuation,
gibberish) reaches a return with at least one label — and on the path where
no rule matched and the case-folded field does not contain `yes`, the
result is exactly the singleton title-cased trimmed field. -/
theorem extract_groups_total_nonempty :
    (∀ name, ∃ out, extract_groups name out) ∧
    (∀ name out, extract_groups name out → 1 ≤ out.length) ∧
    (∀ name out,
        pyStrip name ≠ "" →
        pyLower (pyStrip name) ∉ no_responses →
        pyLower (pyStrip name) ∉ yes_responses →
        found_groups name = [] →
        pyIn "yes" (pyLower (pyStrip name)) = false →
        (extract_groups name out ↔ out = [pyTitle (pyStrip name)])) := by
  refine ⟨fun name => ⟨_, extract_groups_default_spec name⟩, ?_, ?_⟩
  · intro name out h
    unfold extract_groups at h
    split_ifs at h with h1 h2 h3 h4 h5
    · rw [h]; simp
    · rw [h]; simp
    · rw [h]; simp
    · have hne : (found_groups name).dedup ≠ [] := by
        intro he
        exact h4 ((List.dedup_eq_nil _).mp he)
      have hout : out ≠ [] := by
        intro ho
        rw [ho] at h
        exact hne (h.symm.eq_nil)
      exact List.length_pos.mpr hout
    · rw [h]; simp
    · rw [h]; simp
  · intro name out h1 h2 h3 h4 h5
    unfold extract_groups
    rw [if_neg h1, if_neg h2, if_neg h3, if_neg (not_not_intro h4), if_neg (by simp [h5])]

/-- Witness for C8 at the concrete gibberish input `"qwerty"`. -/
theorem extract_groups_total_nonempty_witness :
    extract_groups "qwerty" ["Qwerty"] ∧ 1 ≤ (["Qwerty"] : List String).length :=
  ⟨(extract_groups_total_nonempty.2.2 "qwerty" ["Qwerty"] (by decide) (by decide) (by decide)
      (by decide) (by decide)).mpr (by decide),
   extract_groups_total_nonempty.2.1 "qwerty" ["Qwerty"] (by decide)⟩

/-- C10: the sentinels `Not Specified / Not a YPAA` and
`Yes, Unspecified Group` only ever occur as whole-field single-element
results: a result of `extract_groups` containing either sentinel is that
sentinel's singleton (the per-segment collection loop never produces a
sentinel, and all other branches return singletons). -/
theorem sentinel_labels_whole_field :
    ∀ (name : String) (out : List String), extract_groups name out →
      noLabel ∈ out ∨ yesLabel ∈ out →
      out = [noLabel] ∨ out = [yesLabel] := by
  intro name out h hsent
  unfold extract_groups at h
  split_ifs at h with h1 h2 h3 h4 h5
  · exact Or.inl h
  · exact Or.inl h
  · exact Or.inr h
  · exfalso
    rcases hsent with hs | hs
    · have hmem : noLabel ∈ (found_groups name).dedup := h.mem_iff.mp hs
      exact (found_groups_good (List.mem_dedup.mp hmem)).1 rfl
    · have hmem : yesLabel ∈ (found_groups name).dedup := h.mem_iff.mp hs
      exact (found_groups_good (List.mem_dedup.mp hmem)).2 rfl
  · exact Or.inr h
  · subst h
    rcases hsent with hs | hs
    · left
      rw [List.mem_singleton] at hs
      rw [← hs]
    · right
      rw [List.mem_singleton] at hs
      rw [← hs]

/-- Witness for C10 at the concrete input `"nope"`. -/
theorem sentinel_labels_whole_field_witness :
    ([noLabel] : List String) = [noLabel] ∨ ([noLabel] : List String) = [yesLabel] :=
  sentinel_labels_whole_field "nope" [noLabel] (by decide) (Or.inl (by decide))

/-! ## Supporting lemmas: the clusterer loops -/

theorem scanCandidates_cons (c : ℚ) (counts : String → Nat) (root cand : String)
    (rest visited : List String) :
    scanCandidates c counts root (cand :: rest) visited =
      if cand ∈ visited then scanCandidates c counts root rest visited
      else if ratioGe c (pyLower root) (pyLower cand) then
        ((cand, counts cand) :: (scanCandidates c counts root rest (cand :: visited)).1,
          (scanCandidates c counts root rest (cand :: visited)).2)
      else scanCandidates c counts root rest visited := rfl

theorem scanCandidates_fst_cons (c : ℚ) (counts : String → Nat) (root cand : String)
    (rest visited : List String) :
    (scanCandidates c counts root (cand :: rest) visited).1 =
      if cand ∈ visited then (scanCandidates c counts root rest visited).1
      else if ratioGe c (pyLower root) (pyLower cand) then
        (cand, counts cand) :: (scanCandidates c counts root rest (cand :: visited)).1
      else (scanCandidates c counts root rest visited).1 := by
  rw [scanCandidates_cons]
  split_ifs <;> rfl

theorem scanCandidates_snd_cons (c : ℚ) (counts : String → Nat) (root cand : String)
    (rest visited : List String) :
    (scanCandidates c counts root (cand :: rest) visited).2 =
      if cand ∈ visited then (scanCandidates c counts root rest visited).2
      else if ratioGe c (pyLower root) (pyLower cand) then
        (scanCandidates c counts root rest (cand :: visited)).2
      else (scanCandidates c counts root rest visited).2 := by
  rw [scanCandidates_cons]
  split_ifs <;> rfl

theorem buildGroups_cons (c : ℚ) (counts : String → Nat) (v : String)
    (rest visited : List String) :
    buildGroups c counts (v :: rest) visited =
      if v ∈ visited then buildGroups c counts rest visited
      else
        if 1 < ((v, counts v) :: (scanCandidates c counts v rest (v :: visited)).1).length then
          ((v, counts v) :: (scanCandidates c counts v rest (v :: visited)).1) ::
            buildGroups c counts rest (scanCandidates c counts v rest (v :: visited)).2
        else buildGroups c counts rest (scanCandidates c counts v rest (v :: visited)).2 := rfl

/-- Every pair the inner scan admits for a root is a later unvisited value,
carries its multiset count, and meets the cutoff against the root
(case-insensitively). -/
theorem scanCandidates_adds_spec (c : ℚ) (counts : String → Nat) (root : String) :
    ∀ (cands visited : List String), ∀ q ∈ (scanCandidates c counts root cands visited).1,
      q.1 ∈ cands ∧ q.1 ∉ visited ∧ q.2 = counts q.1 ∧
        ratioGe c (pyLower root) (pyLower q.1) = true
  | [], visited, q, hq => by simp [scanCandidates] at hq
  | cand :: rest, visited, q, hq => by
    rw [scanCandidates_fst_cons] at hq
    split_ifs at hq with hv hr
    · obtain ⟨h1, h2, h3, h4⟩ := scanCandidates_adds_spec c counts root rest visited q hq
      exact ⟨List.mem_cons_of_mem _ h1, h2, h3, h4⟩
    · rcases List.mem_cons.mp hq with rfl | hq'
      · exact ⟨List.mem_cons_self _ _, hv, rfl, hr⟩
      · obtain ⟨h1, h2, h3, h4⟩ :=
          scanCandidates_adds_spec c counts root rest (cand :: visited) q hq'
        exact ⟨List.mem_cons_of_mem _ h1, fun hx => h2 (List.mem_cons_of_mem _ hx), h3, h4⟩
    · obtain ⟨h1, h2, h3, h4⟩ := scanCandidates_adds_spec c counts root rest visited q hq
      exact ⟨List.mem_cons_of_mem _ h1, h2, h3, h4⟩

/-- The final visited set of a scan is the initial one plus the admitted
values. -/
theorem scanCandidates_vis_spec (c : ℚ) (counts : String → Nat) (root : String) :
    ∀ (cands visited : List String) (x : String),
      x ∈ (scanCandidates c counts root cands visited).2 ↔
        (∃ q ∈ (scanCandidates c counts root cands visited).1, q.1 = x) ∨ x ∈ visited
  | [], visited, x => by simp [scanCandidates]
  | cand :: rest, visited, x => by
    rw [scanCandidates_fst_cons, scanCandidates_snd_cons]
    split_ifs with hv hr
    · exact scanCandidates_vis_spec c counts root rest visited x
    · rw [scanCandidates_vis_spec c counts root rest (cand :: visited) x]
      constructor
      · rintro (⟨q, hq, hqx⟩ | hx)
        · exact Or.inl ⟨q, List.mem_cons_of_mem _ hq, hqx⟩
        · rcases List.mem_cons.mp hx with heq | hx'
          · exact Or.inl ⟨(cand, counts cand), List.mem_cons_self _ _, heq.symm⟩
          · exact Or.inr hx'
      · rintro (⟨q, hq, hqx⟩ | hx)
        · rcases List.mem_cons.mp hq with rfl | hq'
          · exact Or.inr (by rw [← hqx]; exact List.mem_cons_self _ _)
          · exact Or.inl ⟨q, hq', hqx⟩
        · exact Or.inr (List.mem_cons_of_mem _ hx)
    · exact scanCandidates_vis_spec c counts root rest visited x

/-- Names admitted by a scan over duplicate-free candidates are
duplicate-free. -/
theorem scanCandidates_adds_nodup (c : ℚ) (counts : String → Nat) (root : String) :
    ∀ (cands visited : List String), cands.Nodup →
      (((scanCandidates c counts root cands visited).1).map (fun q => q.1)).Nodup
  | [], _, _ => by simp [scanCandidates]
  | cand :: rest, visited, hnd => by
    obtain ⟨hv0, hrest⟩ := List.nodup_cons.mp hnd
    rw [scanCandidates_fst_cons]
    split_ifs with h1 h2
    · exact scanCandidates_adds_nodup c counts root rest visited hrest
    · simp only [List.map_cons]
      rw [List.nodup_cons]
      refine ⟨?_, scanCandidates_adds_nodup c counts root rest (cand :: visited) hrest⟩
      intro hmem
      obtain ⟨q, hq, hqx⟩ := List.mem_map.mp hmem
      have h2' := (scanCandidates_adds_spec c counts root rest (cand :: visited) q hq).2.1
      exact h2' (by rw [hqx]; exact List.mem_cons_self _ _)
    · exact scanCandidates_adds_nodup c counts root rest visited hrest

/-- Structure of every kept group: a root drawn from the (unvisited) value
list, its count, and admitted later values each meeting the cutoff against
the root; the group has at least two members. -/
theorem buildGroups_structure (c : ℚ) (counts : String → Nat) :
    ∀ (vals visited : List String), vals.Nodup →
      ∀ g ∈ buildGroups c counts vals visited,
        ∃ root adds, g = (root, counts root) :: adds ∧ 2 ≤ g.length ∧
          root ∈ vals ∧ root ∉ visited ∧
          ∀ q ∈ adds, q.1 ∈ vals ∧ q.1 ≠ root ∧ q.1 ∉ visited ∧
            q.2 = counts q.1 ∧ ratioGe c (pyLower root) (pyLower q.1) = true
  | [], _, _, g, hg => by simp [buildGroups] at hg
  | v :: rest, visited, hnd, g, hg => by
    obtain ⟨hvr, hrest⟩ := List.nodup_cons.mp hnd
    rw [buildGroups_cons] at hg
    have hsubvis : ∀ z, z ∈ visited →
        z ∈ (scanCandidates c counts v rest (v :: visited)).2 := by
      intro z hz
      rw [scanCandidates_vis_spec]
      exact Or.inr (List.mem_cons_of_mem _ hz)
    split_ifs at hg with h1 h2
    · obtain ⟨root, adds, hgeq, hlen, hrm, hrv, hq⟩ :=
        buildGroups_structure c counts rest visited hrest g hg
      refine ⟨root, adds, hgeq, hlen, List.mem_cons_of_mem _ hrm, hrv, fun q hqm => ?_⟩
      obtain ⟨a1, a2, a3, a4, a5⟩ := hq q hqm
      exact ⟨List.mem_cons_of_mem _ a1, a2, a3, a4, a5⟩
    · rcases List.mem_cons.mp hg with rfl | hgtail
      · refine ⟨v, (scanCandidates c counts v rest (v :: visited)).1, rfl, h2,
          List.mem_cons_self _ _, h1, fun q hq => ?_⟩
        obtain ⟨a1, a2, a3, a4⟩ := scanCandidates_adds_spec c counts v rest (v :: visited) q hq
        refine ⟨List.mem_cons_of_mem _ a1, ?_, ?_, a3, a4⟩
        · intro he
          exact hvr (he ▸ a1)
        · intro hz
          exact a2 (List.mem_cons_of_mem _ hz)
      · obtain ⟨root, adds, hgeq, hlen, hrm, hrv, hq⟩ :=
          buildGroups_structure c counts rest _ hrest g hgtail
        refine ⟨root, adds, hgeq, hlen, List.mem_cons_of_mem _ hrm,
          fun hz => hrv (hsubvis _ hz), fun q hqm => ?_⟩
        obtain ⟨a1, a2, a3, a4, a5⟩ := hq q hqm
        exact ⟨List.mem_cons_of_mem _ a1, a2, fun hz => a3 (hsubvis _ hz), a4, a5⟩
    · obtain ⟨root, adds, hgeq, hlen, hrm, hrv, hq⟩ :=
        buildGroups_structure c counts rest _ hrest g hg
      refine ⟨root, adds, hgeq, hlen, List.mem_cons_of_mem _ hrm,
        fun hz => hrv (hsubvis _ hz), fun q hqm => ?_⟩
      obtain ⟨a1, a2, a3, a4, a5⟩ := hq q hqm
      exact ⟨List.mem_cons_of_mem _ a1, a2, fun hz => a3 (hsubvis _ hz), a4, a5⟩

theorem memberNames_cons (p : String × Nat) (g : List (String × Nat)) :
    memberNames (p :: g) = p.1 :: memberNames g := rfl

/-- Over duplicate-free values, the member names of all kept groups are
globally duplicate-free (each value is claimed by at most one group) and
are unvisited input values. -/
theorem buildGroups_flat (c : ℚ) (counts : String → Nat) :
    ∀ (vals visited : List String), vals.Nodup →
      ((buildGroups c counts vals visited).flatMap memberNames).Nodup ∧
        ∀ x ∈ (buildGroups c counts vals visited).flatMap memberNames,
          x ∈ vals ∧ x ∉ visited
  | [], _, _ => by simp [buildGroups]
  | v :: rest, visited, hnd => by
    obtain ⟨hvr, hrest⟩ := List.nodup_cons.mp hnd
    rw [buildGroups_cons]
    split_ifs with h1 h2
    · obtain ⟨ih1, ih2⟩ := buildGroups_flat c counts rest visited hrest
      exact ⟨ih1, fun x hx => ⟨List.mem_cons_of_mem _ (ih2 x hx).1, (ih2 x hx).2⟩⟩
    · obtain ⟨ih1, ih2⟩ :=
        buildGroups_flat c counts rest (scanCandidates c counts v rest (v :: visited)).2 hrest
      have hgrpvis : ∀ x,
          x ∈ memberNames ((v, counts v) :: (scanCandidates c counts v rest (v :: visited)).1) →
          x ∈ (scanCandidates c counts v rest (v :: visited)).2 := by
        intro x hx
        rw [memberNames_cons] at hx
        rcases List.mem_cons.mp hx with rfl | hx'
        · rw [scanCandidates_vis_spec]
          exact Or.inr (List.mem_cons_self _ _)
        · obtain ⟨q, hq, hqx⟩ := List.mem_map.mp hx'
          rw [scanCandidates_vis_spec]
          exact Or.inl ⟨q, hq, hqx⟩
      have hgrpnodup :
          (memberNames ((v, counts v) ::
            (scanCandidates c counts v rest (v :: visited)).1)).Nodup := by
        rw [memberNames_cons, List.nodup_cons]
        refine ⟨?_, scanCandidates_adds_nodup c counts v rest (v :: visited) hrest⟩
        intro hmem
        obtain ⟨q, hq, hqx⟩ := List.mem_map.mp hmem
        have hmem2 := (scanCandidates_adds_spec c counts v rest (v :: visited) q hq).1
        rw [hqx] at hmem2
        exact hvr hmem2
      rw [List.flatMap_cons, List.nodup_append]
      refine ⟨⟨hgrpnodup, ih1, ?_⟩, ?_⟩
      · intro x hx hx'
        exact (ih2 x hx').2 (hgrpvis x hx)
      · intro x hx
        rcases List.mem_append.mp hx with hx' | hx'
        · rw [memberNames_cons] at hx'
          rcases List.mem_cons.mp hx' with rfl | hx''
          · exact ⟨List.mem_cons_self _ _, h1⟩
          · obtain ⟨q, hq, hqx⟩ := List.mem_map.mp hx''
            obtain ⟨a1, a2, _, _⟩ := scanCandidates_adds_spec c counts v rest (v :: visited) q hq
            refine ⟨List.mem_cons_of_mem _ (hqx ▸ a1), fun hz => ?_⟩
            exact (hqx ▸ a2) (List.mem_cons_of_mem _ hz)
        · obtain ⟨hx1, hx2⟩ := ih2 x hx'
          refine ⟨List.mem_cons_of_mem _ hx1, fun hz => ?_⟩
          apply hx2
          rw [scanCandidates_vis_spec]
          exact Or.inr (List.mem_cons_of_mem _ hz)
    · obtain ⟨ih1, ih2⟩ :=
        buildGroups_flat c counts rest (scanCandidates c counts v rest (v :: visited)).2 hrest
      refine ⟨ih1, fun x hx => ?_⟩
      obtain ⟨hx1, hx2⟩ := ih2 x hx
      refine ⟨List.mem_cons_of_mem _ hx1, fun hz => ?_⟩
      apply hx2
      rw [scanCandidates_vis_spec]
      exact Or.inr (List.mem_cons_of_mem _ hz)

/-- In a list whose pieces are globally duplicate-free, an element pins down
the piece containing it. -/
theorem flatMap_nodup_unique {α β : Type} (f : α → List β) :
    ∀ (l : List α), (l.flatMap f).Nodup →
      ∀ a ∈ l, ∀ b ∈ l, ∀ x, x ∈ f a → x ∈ f b → a = b
  | [], _, a, ha, _, _, _, _, _ => absurd ha (List.not_mem_nil a)
  | g :: rest, h, a, ha, b, hb, x, hxa, hxb => by
    rw [List.flatMap_cons, List.nodup_append] at h
    obtain ⟨h1, h2, hdisj⟩ := h
    rcases List.mem_cons.mp ha with rfl | ha' <;> rcases List.mem_cons.mp hb with rfl | hb'
    · rfl
    · exact (hdisj hxa (List.mem_flatMap.mpr ⟨b, hb', hxb⟩)).elim
    · exact (hdisj hxb (List.mem_flatMap.mpr ⟨a, ha', hxa⟩)).elim
    · exact flatMap_nodup_unique f rest h2 a ha' b hb' x hxa hxb

theorem mem_uniqueSorted (values : List String) (x : String) :
    x ∈ uniqueSorted values ↔ x ∈ values := by
  unfold uniqueSorted
  rw [(List.perm_insertionSort _ _).mem_iff, List.mem_dedup]

theorem nodup_uniqueSorted (values : List String) : (uniqueSorted values).Nodup :=
  (List.perm_insertionSort _ _).symm.nodup (List.nodup_dedup _)

theorem mem_similarityGroups {values : List String} {c : ℚ} {g : List (String × Nat)} :
    g ∈ similarityGroups values c ↔
      g ∈ buildGroups c (fun v => values.count v) (uniqueSorted values) [] := by
  unfold similarityGroups
  exact (List.perm_insertionSort _ _).mem_iff

/-! ## The claims about the clusterer -/

/-- C4 (counterexample): the cutoff the current tool surface actually uses
is not `0.8`. -/
theorem cutoff_ne_point_eight : cutoff ≠ 4 / 5 := by
  rw [cutoff_eq]
  norm_num

/-- C4 (amended): the similarity cutoff of `analyze_similarity` is the
hard-coded local constant `0.6` (the function takes no cutoff parameter, so
the value is not configurable from the tool surface). -/
theorem cutoff_is_point_six :
    cutoff = 3 / 5 ∧
    ∀ values, analyze_similarity_groups values = similarityGroups values (3 / 5) := by
  refine ⟨cutoff_eq, fun values => ?_⟩
  unfold analyze_similarity_groups
  rw [cutoff_eq]

/-- C2: at root `"aaaaa"` and candidate `"aaaaaaaaaa"` with the tool's
cutoff `0.6`, the length-difference guard of line 110 holds
(`|5 - 10| = 5 > 5 * 0.4 + 2 = 4`), yet the similarity ratio is still
computed (`2·5/15 = 2/3 ≥ 0.6`) and the candidate is placed in the root's
group: the guard's body is `pass`, so nothing is skipped, contradicting the
claim (and the source's own `skip` comment). -/
theorem length_prune_inactive_at_input :
    lengthPrune "aaaaa" "aaaaaaaaaa" cutoff ∧
    cutoff ≤ pyRatio "aaaaa" "aaaaaaaaaa" ∧
    SameGroup ["aaaaa", "aaaaaaaaaa"] cutoff "aaaaa" "aaaaaaaaaa" := by
  refine ⟨?_, (ratioGe_iff _ _ _).mp (by decide), by decide⟩
  unfold lengthPrune
  have e1 : ("aaaaa" : String).toList.length = 5 := by decide
  have e2 : ("aaaaaaaaaa" : String).toList.length = 10 := by decide
  rw [e1, e2, cutoff_eq]
  norm_num

/-- C3 (counterexample): with values `axxxx`, `bxxxx`, `bxxxxx` the pair
`(bxxxx, bxxxxx)` is grouped together at cutoff `0.9` but not at the lower
cutoff `0.8`: at `0.8` the earlier root `axxxx` claims `bxxxx`
(ratio `0.8`), leaving `bxxxxx` a discarded singleton, while at `0.9`
`axxxx` stays a singleton and `bxxxx` roots a group with `bxxxxx`
(ratio `10/11`).  Raising the cutoff therefore added a group membership,
refuting monotonicity. -/
theorem cluster_monotonicity_fails :
    cutoff45 = 4 / 5 ∧ cutoff910 = 9 / 10 ∧ cutoff45 ≤ cutoff910 ∧
    SameGroup ["axxxx", "bxxxx", "bxxxxx"] cutoff910 "bxxxx" "bxxxxx" ∧
    ¬ SameGroup ["axxxx", "bxxxx", "bxxxxx"] cutoff45 "bxxxx" "bxxxxx" :=
  ⟨cutoff45_eq, cutoff910_eq, by decide, by decide, by decide⟩

/-- Monotonicity invariant for a single root scan (used by C3's amended
claim): with the initial visited sets related by inclusion, every value the
scan admits at the higher cutoff is, at the lower cutoff, either admitted
as well or already visited. -/
theorem scanCandidates_mono_aux {c1 c2 : ℚ} (hc : c1 ≤ c2) (counts : String → Nat)
    (root : String) :
    ∀ (cands v1 v2 : List String), (∀ z ∈ v2, z ∈ v1) →
      ∀ x, (∃ q ∈ (scanCandidates c2 counts root cands v2).1, q.1 = x) →
        (∃ q ∈ (scanCandidates c1 counts root cands v1).1, q.1 = x) ∨ (x ∈ v1 ∧ x ∉ v2)
  | [], v1, v2, hsub, x, hx => by simp [scanCandidates] at hx
  | cand :: rest, v1, v2, hsub, x, hx => by
    rw [scanCandidates_fst_cons] at hx
    by_cases hv2 : cand ∈ v2
    · have hv1 : cand ∈ v1 := hsub _ hv2
      rw [if_pos hv2] at hx
      rw [scanCandidates_fst_cons, if_pos hv1]
      exact scanCandidates_mono_aux hc counts root rest v1 v2 hsub x hx
    · rw [if_neg hv2] at hx
      by_cases hr2 : ratioGe c2 (pyLower root) (pyLower cand) = true
      · rw [if_pos hr2] at hx
        obtain ⟨q, hq, hqx⟩ := hx
        by_cases hv1 : cand ∈ v1
        · rw [scanCandidates_fst_cons, if_pos hv1]
          rcases List.mem_cons.mp hq with rfl | hq'
          · exact Or.inr ⟨hqx ▸ hv1, hqx ▸ hv2⟩
          · have hrec := scanCandidates_mono_aux hc counts root rest v1 (cand :: v2)
              (by
                intro z hz
                rcases List.mem_cons.mp hz with rfl | hz'
                · exact hv1
                · exact hsub _ hz')
              x ⟨q, hq', hqx⟩
            rcases hrec with h' | ⟨ha, hb⟩
            · exact Or.inl h'
            · exact Or.inr ⟨ha, fun hxv2 => hb (List.mem_cons_of_mem _ hxv2)⟩
        · have hr1 : ratioGe c1 (pyLower root) (pyLower cand) = true := ratioGe_mono hc hr2
          rw [scanCandidates_fst_cons, if_neg hv1, if_pos hr1]
          rcases List.mem_cons.mp hq with rfl | hq'
          · exact Or.inl ⟨(cand, counts cand), List.mem_cons_self _ _, hqx⟩
          · have hrec := scanCandidates_mono_aux hc counts root rest (cand :: v1) (cand :: v2)
              (by
                intro z hz
                rcases List.mem_cons.mp hz with rfl | hz'
                · exact List.mem_cons_self _ _
                · exact List.mem_cons_of_mem _ (hsub _ hz'))
              x ⟨q, hq', hqx⟩
            rcases hrec with ⟨q', hq'', hqx'⟩ | ⟨ha, hb⟩
            · exact Or.inl ⟨q', List.mem_cons_of_mem _ hq'', hqx'⟩
            · rcases List.mem_cons.mp ha with heq | ha'
              · exact Or.inl ⟨(cand, counts cand), List.mem_cons_self _ _, heq.symm⟩
              · exact Or.inr ⟨ha', fun hxv2 => hb (List.mem_cons_of_mem _ hxv2)⟩
      · rw [if_neg hr2] at hx
        by_cases hv1 : cand ∈ v1
        · rw [scanCandidates_fst_cons, if_pos hv1]
          exact scanCandidates_mono_aux hc counts root rest v1 v2 hsub x hx
        · by_cases hr1 : ratioGe c1 (pyLower root) (pyLower cand) = true
          · rw [scanCandidates_fst_cons, if_neg hv1, if_pos hr1]
            have hrec := scanCandidates_mono_aux hc counts root rest (cand :: v1) v2
              (fun z hz => List.mem_cons_of_mem _ (hsub _ hz)) x hx
            rcases hrec with ⟨q', hq'', hqx'⟩ | ⟨ha, hb⟩
            · exact Or.inl ⟨q', List.mem_cons_of_mem _ hq'', hqx'⟩
            · rcases List.mem_cons.mp ha with heq | ha'
              · exact Or.inl ⟨(cand, counts cand), List.mem_cons_self _ _, heq.symm⟩
              · exact Or.inr ⟨ha', hb⟩
          · rw [scanCandidates_fst_cons, if_neg hv1, if_neg hr1]
            exact scanCandidates_mono_aux hc counts root rest v1 v2 hsub x hx

/-- C3 (amended): monotonicity does hold for one root's scan in isolation —
from the same visited state, every candidate the scan admits at cutoff `c2`
is also admitted at any cutoff `c1 ≤ c2`.  (The full greedy output is not
monotone: see the counterexample, where the interaction between roots
through the visited set reverses the containment.) -/
theorem scan_candidates_monotone :
    ∀ (c1 c2 : ℚ) (counts : String → Nat) (root : String), c1 ≤ c2 →
      ∀ (cands visited : List String) (x : String),
        (∃ q ∈ (scanCandidates c2 counts root cands visited).1, q.1 = x) →
        ∃ q ∈ (scanCandidates c1 counts root cands visited).1, q.1 = x := by
  intro c1 c2 counts root hc cands visited x hx
  rcases scanCandidates_mono_aux hc counts root cands visited visited
      (fun z hz => hz) x hx with h | ⟨h1, h2⟩
  · exact h
  · exact absurd h1 h2

/-- Witness for C3's amended theorem: the candidate `abc`, admitted for root
`ab` at cutoff `0.8`, is also admitted at cutoff `0.5`. -/
theorem scan_candidates_monotone_witness :
    ∃ q ∈ (scanCandidates (Rat.mk' 1 2 (by decide) (by decide)) (fun _ => 1) "ab"
      ["abc"] []).1, q.1 = "abc" :=
  scan_candidates_monotone (Rat.mk' 1 2 (by decide) (by decide)) cutoff45
    (fun _ => 1) "ab" (by decide) ["abc"] [] "abc" (by decide)

/-- C7: invariants of the clusterer's output at any cutoff: every kept
group has at least two members; a group consists of a designated root (with
its multiset count) followed by members whose case-insensitive ratio to the
root meets the cutoff (each with its multiset count); a value belongs to at
most one group; and a value with no similarity partner meeting the cutoff
in either direction never appears in any group. -/
theorem similarity_group_invariants (values : List String) (c : ℚ) :
    (∀ g ∈ similarityGroups values c, 2 ≤ g.length) ∧
    (∀ g ∈ similarityGroups values c,
        ∃ root adds, g = (root, values.count root) :: adds ∧
          ∀ q ∈ adds, q.2 = values.count q.1 ∧ c ≤ pyRatio (pyLower root) (pyLower q.1)) ∧
    (∀ g1 ∈ similarityGroups values c, ∀ g2 ∈ similarityGroups values c,
        ∀ x, x ∈ memberNames g1 → x ∈ memberNames g2 → g1 = g2) ∧
    (∀ v, (∀ w ∈ values, w ≠ v →
          pyRatio (pyLower v) (pyLower w) < c ∧ pyRatio (pyLower w) (pyLower v) < c) →
        ∀ g ∈ similarityGroups values c, v ∉ memberNames g) := by
  have hnd := nodup_uniqueSorted values
  refine ⟨?_, ?_, ?_, ?_⟩
  · intro g hg
    obtain ⟨root, adds, hgeq, hlen, _⟩ :=
      buildGroups_structure c _ _ [] hnd g (mem_similarityGroups.mp hg)
    exact hlen
  · intro g hg
    obtain ⟨root, adds, hgeq, hlen, hrm, hrv, hq⟩ :=
      buildGroups_structure c _ _ [] hnd g (mem_similarityGroups.mp hg)
    refine ⟨root, adds, hgeq, fun q hqm => ?_⟩
    obtain ⟨a1, a2, a3, a4, a5⟩ := hq q hqm
    exact ⟨a4, (ratioGe_iff _ _ _).mp a5⟩
  · intro g1 hg1 g2 hg2 x hx1 hx2
    have hflat := (buildGroups_flat c (fun v => values.count v) (uniqueSorted values) [] hnd).1
    exact flatMap_nodup_unique memberNames _ hflat g1 (mem_similarityGroups.mp hg1)
      g2 (mem_similarityGroups.mp hg2) x hx1 hx2
  · intro v hv g hg hvmem
    obtain ⟨root, adds, hgeq, hlen, hrootmem, _, hq⟩ :=
      buildGroups_structure c _ _ [] hnd g (mem_similarityGroups.mp hg)
    subst hgeq
    simp only [memberNames, List.map_cons] at hvmem
    rcases List.mem_cons.mp hvmem with rfl | hx'
    · cases adds with
      | nil => simp at hlen
      | cons q0 qrest =>
        obtain ⟨a1, a2, a3, a4, a5⟩ := hq q0 (List.mem_cons_self _ _)
        have hq0v : q0.1 ∈ values := (mem_uniqueSorted _ _).mp a1
        have hge := (ratioGe_iff c _ _).mp a5
        exact absurd hge (not_le.mpr (hv q0.1 hq0v a2).1)
    · obtain ⟨q, hqm, hqv⟩ := List.mem_map.mp hx'
      obtain ⟨a1, a2, a3, a4, a5⟩ := hq q hqm
      have hrootvals : root ∈ values := (mem_uniqueSorted _ _).mp hrootmem
      have hrne : root ≠ v := by
        intro he
        exact a2 (by rw [hqv, he])
      have hge := (ratioGe_iff c _ _).mp a5
      rw [hqv] at hge
      exact absurd hge (not_le.mpr (hv root hrootvals hrne).2)

/-- Witness for C7 at a concrete column: values `ab`, `abc`, `zzzzzz` at
cutoff `0.8` produce the single group `[(ab,1), (abc,1)]`, and the
partnerless `zzzzzz` is not in it. -/
theorem similarity_group_invariants_witness :
    2 ≤ ([("ab", 1), ("abc", 1)] : List (String × Nat)).length ∧
    "zzzzzz" ∉ memberNames [("ab", 1), ("abc", 1)] := by
  constructor
  · exact (similarity_group_invariants ["ab", "abc", "zzzzzz"] cutoff45).1
      [("ab", 1), ("abc", 1)] (by decide)
  · refine (similarity_group_invariants ["ab", "abc", "zzzzzz"] cutoff45).2.2.2 "zzzzzz" ?_
      [("ab", 1), ("abc", 1)] (by decide)
    intro w hw hne
    fin_cases hw
    · exact ⟨(ratioGe_false_iff _ _ _).mp (by decide), (ratioGe_false_iff _ _ _).mp (by decide)⟩
    · exact ⟨(ratioGe_false_iff _ _ _).mp (by decide), (ratioGe_false_iff _ _ _).mp (by decide)⟩
    · exact absurd rfl hne
